import Mathlib

/-!
Verification of the Splunk-MITRE-Generator script (`Splunk-CSV-MITRE.py`).

The script parses a CSV of detection-rule-to-technique mappings, aggregates
per-technique and per-tactic occurrence counts, and builds a MITRE ATT&CK
Navigator layer document.  The definitions below are a shallow embedding of
the script's pure core: CSV cell strings are Lean `String`s, a CSV row is a
`List String`, Python dicts (which preserve insertion order) are association
lists, and the layer document is a Lean structure.
-/

namespace SplunkMitre

/-- ASCII whitespace as stripped by Python's `str.strip()`. -/
def isPySpace (c : Char) : Bool :=
  c = ' ' || c = '\t' || c = '\n' || c = '\r' || c = '\x0b' || c = '\x0c'

/-- Python `str.strip()` on a list of characters: drop leading and trailing
whitespace. -/
def pyStripL (l : List Char) : List Char :=
  (l.dropWhile isPySpace).rdropWhile isPySpace

/-- Python `str.strip()`. -/
def pyStrip (s : String) : String :=
  String.mk (pyStripL s.data)

/-- Python `str.split(sep)` for a one-character separator, on a list of
characters.  `split` of the empty string is `[[]]`, matching Python's
`"".split(',') == ['']`. -/
def splitClist (sep : Char) : List Char → List (List Char)
  | [] => [[]]
  | c :: cs =>
    if c = sep then [] :: splitClist sep cs
    else
      match splitClist sep cs with
      | [] => [[c]]
      | t :: ts => (c :: t) :: ts

/-- The token extraction applied to each technique cell:
`[t.strip() for t in s.split(',') if t.strip()]`. -/
def splitTokens (s : String) : List String :=
  (((splitClist ',' s.data).map (fun t => String.mk (pyStripL t))).filter
    (fun t => t ≠ ""))

/-- One rule-to-techniques mapping, an element of `rules_with_mappings`. -/
structure Rule where
  name : String
  techniques : List String
deriving DecidableEq, Repr, Inhabited

/-- Python dict read `m.get(k, 0)`. -/
def lookupCount (m : List (String × Nat)) (k : String) : Nat :=
  match m with
  | [] => 0
  | (k', v) :: rest => if k' = k then v else lookupCount rest k

/-- Python dict write `m[k] = m.get(k, 0) + 1`: update in place when the key
exists, otherwise append the new key (Python dicts preserve insertion
order). -/
def incr (m : List (String × Nat)) (k : String) : List (String × Nat) :=
  match m with
  | [] => [(k, 1)]
  | (k', v) :: rest => if k' = k then (k', v + 1) :: rest else (k', v) :: incr rest k

/-- Sum of the values of a count table (`sum(m.values())`). -/
def sumValues (m : List (String × Nat)) : Nat :=
  (m.map Prod.snd).sum

/-- The aggregation state of `process_mitre_data`: `tactics_count`,
`techniques_count` and `rules_with_mappings`. -/
structure AggState where
  tactics_count : List (String × Nat)
  techniques_count : List (String × Nat)
  rules_with_mappings : List Rule
deriving DecidableEq, Repr

/-- The tactic bucket for one technique string:
`technique.split('.')[0]` when it contains a dot, the technique itself
otherwise. -/
def tacticKey (technique : String) : String :=
  if '.' ∈ technique.data then String.mk ((splitClist '.' technique.data).headD [])
  else technique

/-- The body of the per-technique counting loop (source lines 92-100):
increment `techniques_count[technique]`, then increment the tactic bucket. -/
def countTechnique (st : AggState) (technique : String) : AggState :=
  let st1 : AggState := { st with techniques_count := incr st.techniques_count technique }
  if '.' ∈ technique.data then
    { st1 with
      tactics_count := incr st1.tactics_count
        (String.mk ((splitClist '.' technique.data).headD [])) }
  else
    { st1 with tactics_count := incr st1.tactics_count technique }

/-- Parsing of one data row (source lines 65-89), given the column indices.
Returns the Rule Mapping the row contributes, or `none` when the row is
skipped (too few cells, both technique cells empty, or no non-empty
tokens). -/
def parseRow (title_idx tech_idx subtech_idx : Nat) (row : List String) :
    Option Rule :=
  if max (title_idx + 1) (max (tech_idx + 1) (subtech_idx + 1)) ≤ row.length then
    let rule_name := pyStrip (row.getD title_idx "")
    let techniques := pyStrip (row.getD tech_idx "")
    let subtechniques := pyStrip (row.getD subtech_idx "")
    if techniques = "" ∧ subtechniques = "" then none
    else
      let all_techniques :=
        (if techniques ≠ "" then splitTokens techniques else []) ++
          (if subtechniques ≠ "" then splitTokens subtechniques else [])
      if all_techniques = [] then none
      else some { name := rule_name, techniques := all_techniques }
  else none

/-- One iteration of the row loop: parse the row; when it is retained,
append the Rule Mapping and count each of its techniques. -/
def processRowStep (title_idx tech_idx subtech_idx : Nat) (st : AggState)
    (row : List String) : AggState :=
  match parseRow title_idx tech_idx subtech_idx row with
  | none => st
  | some r =>
    let st1 : AggState := { st with rules_with_mappings := st.rules_with_mappings ++ [r] }
    r.techniques.foldl countTechnique st1

/-- Failure modes of CSV processing that the claims refer to. -/
inductive ProcError where
  | missingColumns (missing : List String) (found : List String)
deriving DecidableEq, Repr

/-- The required columns (source line 55). -/
def requiredColumns : List String := ["title", "techniques", "subtechniques"]

/-- Python `list.index` restricted to the case where the element occurs. -/
def pyIndexOf (l : List String) (x : String) : Nat :=
  match l with
  | [] => 0
  | y :: ys => if y = x then 0 else pyIndexOf ys x + 1

/-- The CSV-processing core of `process_mitre_data` (source lines 50-100):
strip the header names, check the required columns, then fold the row loop
over the data rows starting from empty counters. -/
def processCSV (headerRow : List String) (rows : List (List String)) :
    Except ProcError AggState :=
  let headers := headerRow.map pyStrip
  let missing := requiredColumns.filter (fun col => ¬ col ∈ headers)
  if missing ≠ [] then .error (.missingColumns missing headers)
  else
    let title_idx := pyIndexOf headers "title"
    let tech_idx := pyIndexOf headers "techniques"
    let subtech_idx := pyIndexOf headers "subtechniques"
    .ok (rows.foldl (processRowStep title_idx tech_idx subtech_idx)
      ⟨[], [], []⟩)

/-- Python's `f"{n:02x}"`: lowercase hex digits of `n`, left-padded with
`'0'` to at least two characters. -/
def fmt02x (n : Nat) : String :=
  let ds := Nat.toDigits 16 n
  String.mk (List.replicate (2 - ds.length) '0' ++ ds)

/-- The color of a technique entry (source line 133):
`f"#{min(255, count * 50):02x}3333"`. -/
def colorFor (count : Nat) : String :=
  "#" ++ fmt02x (min 255 (count * 50)) ++ "3333"

/-- The "Rules Using Technique" metadata value (source lines 138-141): the
newline-join of the names of the retained rules whose technique list
contains `tid`, in retained order. -/
def rulesUsingValue (rules : List Rule) (tid : String) : String :=
  String.intercalate "\n"
    ((rules.filter (fun rule => tid ∈ rule.techniques)).map Rule.name)

/-- One element of the layer document's `techniques` array.  `rulesUsing` is
the value of its single "Rules Using Technique" metadata entry. -/
structure TechEntry where
  techniqueID : String
  score : Nat
  color : String
  enabled : Bool
  rulesUsing : String
  showSubtechniques : Bool
deriving DecidableEq, Repr, Inhabited

/-- The layer document's `gradient` object. -/
structure Gradient where
  colors : List String
  minValue : Nat
  maxValue : Nat
deriving DecidableEq, Repr

/-- The layer document (source lines 110-152); wall-clock values are passed
in as parameters. -/
structure LayerDoc where
  name : String
  domain : String
  description : String
  generated : String
  rules_analyzed : String
  techniques : List TechEntry
  gradient : Gradient
deriving DecidableEq, Repr

/-- Source line 103: `max(techniques_count.values()) if techniques_count
else 1`; Python's `max` over a non-empty list of naturals is the left fold
of `max`. -/
def maxScore (techniques_count : List (String × Nat)) : Nat :=
  if techniques_count.isEmpty then 1
  else (techniques_count.map Prod.snd).foldl max 0

/-- The technique entry built for one `(tid, count)` item of
`techniques_count` (source lines 130-144). -/
def buildEntry (rules : List Rule) (p : String × Nat) : TechEntry :=
  { techniqueID := p.1
    score := p.2
    color := colorFor p.2
    enabled := true
    rulesUsing := rulesUsingValue rules p.1
    showSubtechniques := true }

/-- The layer document built from the aggregation state
(source lines 103-152). -/
def buildLayer (st : AggState) (base_name generated : String) : LayerDoc :=
  { name := "Splunk Coverage - " ++ base_name
    domain := "enterprise-attack"
    description := "Coverage of " ++ toString st.techniques_count.length ++
      " MITRE ATT&CK techniques in Splunk rules"
    generated := generated
    rules_analyzed := toString st.rules_with_mappings.length
    techniques := st.techniques_count.map (buildEntry st.rules_with_mappings)
    gradient :=
      { colors := ["#ffffff", "#ff6666"]
        minValue := 0
        maxValue := maxScore st.techniques_count } }

/-!
Control-flow model of `process_mitre_data` and `main` (exception handling
and exit codes).  A file is modelled by its path, whether it exists on
disk, and the outcome of the processing body (the `try` block, source
lines 49-169): `.ok ()` when it completes, `.error msg` when it raises an
exception with message `msg`.
-/

/-- One input file together with the outcome its processing body would
have. -/
structure FileInput where
  path : String
  fileExists : Bool
  body : Except String Unit
deriving Repr

/-- Model of `process_mitre_data` (source lines 39-172): the existence check raises
`FileNotFoundError` before the `try` block, so it propagates (`.error`);
every exception inside the `try` block is caught by the handler at line
171, which prints a report and returns normally (`.ok`, with the report
carried as `some msg`). -/
def processMitreData (f : FileInput) : Except String (Option String) :=
  if f.fileExists = false then .error ("CSV file not found: " ++ f.path)
  else
    match f.body with
    | .ok () => .ok none
    | .error e => .ok (some ("Error processing MITRE data: " ++ e))

/-- Model of `main` in single-file mode (source lines 199-204): the exit code is 1
exactly when `process_mitre_data` raises, else 0. -/
def mainSingle (f : FileInput) : Nat :=
  match processMitreData f with
  | .ok _ => 0
  | .error _ => 1

/-- Model of `main` in batch mode (source lines 193-198): process the files in
order; an exception propagating out of `process_mitre_data` aborts the
loop and yields exit code 1.  Returns the list of paths for which
`process_mitre_data` was called and returned, and the exit code. -/
def runBatch : List FileInput → List String × Nat
  | [] => ([], 0)
  | f :: fs =>
    match processMitreData f with
    | .ok _ =>
      let rest := runBatch fs
      (f.path :: rest.1, rest.2)
    | .error _ => ([], 1)

/-!
Output-path model (`get_subfolder_name`, `ensure_output_directory` and the
filename construction at source lines 104-108).  Paths are modelled
relative to the script directory; `os.path.join` joins with `'/'`.
-/

/-- Model of `os.path.basename`: the part of the path after the last `'/'`. -/
def pyBasename (p : String) : String :=
  String.mk ((splitClist '/' p.data).getLastD [])

/-- The root part of `os.path.splitext` applied to a basename (no `'/'`):
cut at the last `'.'`, unless every character before that `'.'` is itself a
`'.'` (so that leading dots never start an extension). -/
def pySplitextRoot (b : String) : String :=
  let l := b.data
  if '.' ∈ l then
    let pre := ((l.reverse.dropWhile (fun c => c ≠ '.')).tail).reverse
    if pre.all (fun c => c = '.') then b else String.mk pre
  else b

/-- Model of `get_subfolder_name` (source lines 19-24). -/
def get_subfolder_name (csv_path : String) : String :=
  let base_name := pyBasename csv_path
  if '_' ∈ base_name.data then String.mk ((splitClist '_' base_name.data).headD [])
  else "default"

/-- Model of `ensure_output_directory` (source lines 26-37) as a path: the `MITRE`
directory with the given subfolder under it. -/
def ensure_output_directory (subfolder : String) : String :=
  "MITRE" ++ "/" ++ subfolder

/-- The output file path built at source lines 104-108:
`os.path.join(output_dir, f"layer_{base_name}_{current_time}.json")` where
`base_name` is the input basename without extension. -/
def layerFilename (csv_path current_time : String) : String :=
  let base_name := pySplitextRoot (pyBasename csv_path)
  let subfolder := get_subfolder_name csv_path
  let output_dir := ensure_output_directory subfolder
  output_dir ++ "/" ++ ("layer_" ++ base_name ++ "_" ++ current_time ++ ".json")

/-! ### Lemmas about the count tables -/

theorem lookupCount_incr_self (m : List (String × Nat)) (k : String) :
    lookupCount (incr m k) k = lookupCount m k + 1 := by
  induction m with
  | nil => simp [incr, lookupCount]
  | cons p rest ih =>
    obtain ⟨k', v⟩ := p
    by_cases h : k' = k
    · simp [incr, lookupCount, h]
    · simp [incr, lookupCount, h, ih]

theorem lookupCount_incr_ne (m : List (String × Nat)) (k k' : String)
    (h : k' ≠ k) : lookupCount (incr m k) k' = lookupCount m k' := by
  induction m with
  | nil =>
    have hne : ¬ k = k' := fun hkk => h hkk.symm
    simp only [incr, lookupCount]
    rw [if_neg hne]
  | cons p rest ih =>
    obtain ⟨k'', v⟩ := p
    simp only [incr]
    by_cases hk : k'' = k
    · rw [if_pos hk]
      have hne : ¬ k'' = k' := by rw [hk]; exact fun hkk => h hkk.symm
      simp only [lookupCount]
      rw [if_neg hne, if_neg hne]
    · rw [if_neg hk]
      simp only [lookupCount]
      by_cases hk' : k'' = k'
      · rw [if_pos hk', if_pos hk']
      · rw [if_neg hk', if_neg hk', ih]

theorem sumValues_incr (m : List (String × Nat)) (k : String) :
    sumValues (incr m k) = sumValues m + 1 := by
  induction m with
  | nil => simp [incr, sumValues]
  | cons p rest ih =>
    obtain ⟨k', v⟩ := p
    by_cases h : k' = k
    · simp [incr, sumValues, h]
      omega
    · simp only [incr, sumValues, if_neg h, List.map_cons, List.sum_cons]
      simp only [sumValues] at ih
      omega

theorem mem_keys_incr (m : List (String × Nat)) (k k' : String)
    (h : k' ∈ (incr m k).map Prod.fst) : k' ∈ m.map Prod.fst ∨ k' = k := by
  induction m with
  | nil => simpa [incr] using h
  | cons p rest ih =>
    obtain ⟨k'', v⟩ := p
    by_cases hk : k'' = k
    · simp only [incr, if_pos hk, List.map_cons, List.mem_cons] at h
      simp only [List.map_cons, List.mem_cons]
      exact Or.inl h
    · simp only [incr, if_neg hk, List.map_cons, List.mem_cons] at h
      simp only [List.map_cons, List.mem_cons]
      rcases h with h | h
      · exact Or.inl (Or.inl h)
      · rcases ih h with h' | h'
        · exact Or.inl (Or.inr h')
        · exact Or.inr h'

theorem pos_incr (m : List (String × Nat)) (k : String)
    (h : ∀ p ∈ m, 0 < p.2) : ∀ p ∈ incr m k, 0 < p.2 := by
  induction m with
  | nil => simp [incr]
  | cons q rest ih =>
    obtain ⟨k', v⟩ := q
    by_cases hk : k' = k
    · intro p hp
      simp only [incr, if_pos hk, List.mem_cons] at hp
      rcases hp with hp | hp
      · simp [hp]
      · exact h p (List.mem_cons_of_mem _ hp)
    · intro p hp
      simp only [incr, if_neg hk, List.mem_cons] at hp
      rcases hp with hp | hp
      · exact hp ▸ h (k', v) (List.mem_cons_self _ _)
      · exact ih (fun q hq => h q (List.mem_cons_of_mem _ hq)) p hp

/-! ### Lemmas about `splitClist` -/

theorem splitClist_ne_nil (sep : Char) (l : List Char) :
    splitClist sep l ≠ [] := by
  cases l with
  | nil => simp [splitClist]
  | cons c cs =>
    by_cases h : c = sep
    · simp [splitClist, h]
    · simp only [splitClist, if_neg h]
      cases splitClist sep cs <;> simp

theorem splitClist_headD_eq_takeWhile (sep : Char) (l : List Char) :
    (splitClist sep l).headD [] = l.takeWhile (fun c => c ≠ sep) := by
  induction l with
  | nil => simp [splitClist]
  | cons c cs ih =>
    by_cases h : c = sep
    · simp [splitClist, h, List.takeWhile_cons]
    · simp only [splitClist, if_neg h]
      rcases hs : splitClist sep cs with _ | ⟨t, ts⟩
      · exact absurd hs (splitClist_ne_nil sep cs)
      · rw [hs] at ih
        simp only [List.headD_cons] at ih
        simp [List.takeWhile_cons, h, ih]

theorem takeWhile_length_lt_of_mem {sep : Char} {l : List Char}
    (h : sep ∈ l) : (l.takeWhile (fun c => c ≠ sep)).length < l.length := by
  induction l with
  | nil => simp at h
  | cons c cs ih =>
    by_cases hc : c = sep
    · simp [List.takeWhile_cons, hc]
    · have : sep ∈ cs := by
        rcases List.mem_cons.mp h with h' | h'
        · exact absurd h'.symm hc
        · exact h'
      simp only [List.takeWhile_cons, decide_eq_true_eq]
      rw [if_pos hc]
      simpa using ih this

/-! ### Lemmas about `tacticKey` and `countTechnique` -/

theorem tacticKey_eq_takeWhile {t : String} (h : '.' ∈ t.data) :
    tacticKey t = String.mk (t.data.takeWhile (fun c => c ≠ '.')) := by
  unfold tacticKey
  rw [if_pos h, splitClist_headD_eq_takeWhile]

theorem tacticKey_ne {t : String} (h : '.' ∈ t.data) : tacticKey t ≠ t := by
  rw [tacticKey_eq_takeWhile h]
  intro heq
  have hd : (t.data.takeWhile (fun c => c ≠ '.')) = t.data := congrArg String.data heq
  have := takeWhile_length_lt_of_mem h
  rw [hd] at this
  omega

theorem countTechnique_tactics (st : AggState) (t : String) :
    (countTechnique st t).tactics_count = incr st.tactics_count (tacticKey t) := by
  by_cases h : '.' ∈ t.data <;> simp [countTechnique, tacticKey, h]

theorem countTechnique_techniques (st : AggState) (t : String) :
    (countTechnique st t).techniques_count = incr st.techniques_count t := by
  by_cases h : '.' ∈ t.data <;> simp [countTechnique, h]

theorem countTechnique_rules (st : AggState) (t : String) :
    (countTechnique st t).rules_with_mappings = st.rules_with_mappings := by
  by_cases h : '.' ∈ t.data <;> simp [countTechnique, h]

/-- C1: for every technique string counted by the Aggregator, the tactic
bucket incremented is the substring before the first `'.'` when the string
contains a dot (and no tactic key equal to the full sub-technique ID is
created), and the string itself otherwise; each occurrence increments
exactly one tactic bucket (the bucket gains 1, all other keys are
unchanged, and the table total grows by exactly 1). -/
theorem tactic_extraction_correct (st : AggState) (t : String) :
    (countTechnique st t).tactics_count = incr st.tactics_count (tacticKey t) ∧
    ('.' ∈ t.data →
      tacticKey t = String.mk (t.data.takeWhile (fun c => c ≠ '.')) ∧
      tacticKey t ≠ t ∧
      (t ∉ st.tactics_count.map Prod.fst →
        t ∉ (countTechnique st t).tactics_count.map Prod.fst)) ∧
    ('.' ∉ t.data → tacticKey t = t) ∧
    lookupCount (countTechnique st t).tactics_count (tacticKey t) =
      lookupCount st.tactics_count (tacticKey t) + 1 ∧
    (∀ k, k ≠ tacticKey t →
      lookupCount (countTechnique st t).tactics_count k =
        lookupCount st.tactics_count k) ∧
    sumValues (countTechnique st t).tactics_count =
      sumValues st.tactics_count + 1 := by
  refine ⟨countTechnique_tactics st t, ?_, ?_, ?_, ?_, ?_⟩
  · intro h
    refine ⟨tacticKey_eq_takeWhile h, tacticKey_ne h, ?_⟩
    intro hnot hmem
    rw [countTechnique_tactics st t] at hmem
    rcases mem_keys_incr _ _ _ hmem with h' | h'
    · exact hnot h'
    · exact tacticKey_ne h h'.symm
  · intro h
    simp [tacticKey, h]
  · rw [countTechnique_tactics st t, lookupCount_incr_self]
  · intro k hk
    rw [countTechnique_tactics st t, lookupCount_incr_ne _ _ _ hk]
  · rw [countTechnique_tactics st t, sumValues_incr]

/-- Witness for C1 at the concrete state `⟨[], [], []⟩` and technique
`"T1059.001"`. -/
theorem tactic_extraction_correct_witness :
    tacticKey "T1059.001" =
      String.mk ("T1059.001".data.takeWhile (fun c => c ≠ '.')) ∧
    tacticKey "T1059.001" ≠ "T1059.001" ∧
    sumValues (countTechnique ⟨[], [], []⟩ "T1059.001").tactics_count =
      sumValues (AggState.tactics_count ⟨[], [], []⟩) + 1 := by
  have h := tactic_extraction_correct ⟨[], [], []⟩ "T1059.001"
  have hdot : '.' ∈ "T1059.001".data := by decide
  exact ⟨(h.2.1 hdot).1, (h.2.1 hdot).2.1, h.2.2.2.2.2⟩

/-! ### Lemmas about the aggregation fold -/

theorem foldl_countTechnique_rules (l : List String) (st : AggState) :
    (l.foldl countTechnique st).rules_with_mappings = st.rules_with_mappings := by
  induction l generalizing st with
  | nil => rfl
  | cons t ts ih => rw [List.foldl_cons, ih, countTechnique_rules]

theorem foldl_countTechnique_sum (l : List String) (st : AggState) :
    sumValues (l.foldl countTechnique st).techniques_count =
      sumValues st.techniques_count + l.length := by
  induction l generalizing st with
  | nil => simp
  | cons t ts ih =>
    rw [List.foldl_cons, ih, countTechnique_techniques, sumValues_incr]
    simp only [List.length_cons]
    omega

theorem foldl_countTechnique_pos (l : List String) (st : AggState)
    (h : ∀ p ∈ st.techniques_count, 0 < p.2) :
    ∀ p ∈ (l.foldl countTechnique st).techniques_count, 0 < p.2 := by
  induction l generalizing st with
  | nil => exact h
  | cons t ts ih =>
    refine ih _ ?_
    rw [countTechnique_techniques]
    exact pos_incr _ _ h

theorem processRowStep_rules (ti i s : Nat) (st : AggState) (row : List String) :
    (processRowStep ti i s st row).rules_with_mappings =
      st.rules_with_mappings ++ (parseRow ti i s row).toList := by
  unfold processRowStep
  cases h : parseRow ti i s row with
  | none => simp
  | some r => simp [foldl_countTechnique_rules]

theorem processRowStep_sum (ti i s : Nat) (st : AggState) (row : List String) :
    sumValues (processRowStep ti i s st row).techniques_count =
      sumValues st.techniques_count +
        (parseRow ti i s row).elim 0 (fun r => r.techniques.length) := by
  unfold processRowStep
  cases h : parseRow ti i s row with
  | none => simp
  | some r => simp [foldl_countTechnique_sum]

theorem processRowStep_pos (ti i s : Nat) (st : AggState) (row : List String)
    (h : ∀ p ∈ st.techniques_count, 0 < p.2) :
    ∀ p ∈ (processRowStep ti i s st row).techniques_count, 0 < p.2 := by
  unfold processRowStep
  cases hp : parseRow ti i s row with
  | none => exact h
  | some r => exact foldl_countTechnique_pos _ _ h

theorem foldl_rows_rules (ti i s : Nat) (rows : List (List String))
    (st : AggState) :
    (rows.foldl (processRowStep ti i s) st).rules_with_mappings =
      st.rules_with_mappings ++ rows.filterMap (parseRow ti i s) := by
  induction rows generalizing st with
  | nil => simp
  | cons row rest ih =>
    rw [List.foldl_cons, ih, processRowStep_rules]
    cases h : parseRow ti i s row <;>
      simp [List.filterMap_cons, h]

theorem foldl_rows_sum (ti i s : Nat) (rows : List (List String))
    (st : AggState) :
    sumValues (rows.foldl (processRowStep ti i s) st).techniques_count =
      sumValues st.techniques_count +
        ((rows.filterMap (parseRow ti i s)).map
          (fun r => r.techniques.length)).sum := by
  induction rows generalizing st with
  | nil => simp
  | cons row rest ih =>
    rw [List.foldl_cons, ih, processRowStep_sum]
    cases h : parseRow ti i s row <;>
      simp [List.filterMap_cons, h] <;> omega

theorem foldl_rows_pos (ti i s : Nat) (rows : List (List String))
    (st : AggState) (h : ∀ p ∈ st.techniques_count, 0 < p.2) :
    ∀ p ∈ (rows.foldl (processRowStep ti i s) st).techniques_count, 0 < p.2 := by
  induction rows generalizing st with
  | nil => exact h
  | cons row rest ih => exact ih _ (processRowStep_pos _ _ _ _ _ h)

theorem processCSV_ok {headerRow : List String} {rows : List (List String)}
    {st : AggState} (h : processCSV headerRow rows = .ok st) :
    st = rows.foldl
        (processRowStep (pyIndexOf (headerRow.map pyStrip) "title")
          (pyIndexOf (headerRow.map pyStrip) "techniques")
          (pyIndexOf (headerRow.map pyStrip) "subtechniques")) ⟨[], [], []⟩ := by
  simp only [processCSV] at h
  split at h
  · exact absurd h (by simp)
  · simp only [Except.ok.injEq] at h
    exact h.symm

/-! ### Lemmas about `parseRow` -/

theorem mem_splitTokens_ne_empty {s x : String} (h : x ∈ splitTokens s) :
    x ≠ "" := by
  unfold splitTokens at h
  have := List.mem_filter.mp h
  simpa using this.2

theorem splitTokens_empty : splitTokens "" = [] := rfl

theorem if_splitTokens (x : String) :
    (if x ≠ "" then splitTokens x else []) = splitTokens x := by
  split
  · rfl
  · rename_i hx
    rw [not_not] at hx
    rw [hx, splitTokens_empty]

theorem parseRow_techniques (ti i s : Nat) (row : List String) (r : Rule)
    (h : parseRow ti i s row = some r) :
    r.techniques =
      splitTokens (pyStrip (row.getD i "")) ++
        splitTokens (pyStrip (row.getD s "")) := by
  simp only [parseRow, if_splitTokens] at h
  split at h
  · split at h
    · exact absurd h (by simp)
    · split at h
      · exact absurd h (by simp)
      · simp only [Option.some.injEq] at h
        rw [← h]
  · exact absurd h (by simp)

theorem parseRow_tokens_ne_empty (ti i s : Nat) (row : List String) (r : Rule)
    (h : parseRow ti i s row = some r) : ∀ x ∈ r.techniques, x ≠ "" := by
  intro x hx
  rw [parseRow_techniques ti i s row r h] at hx
  rcases List.mem_append.mp hx with hx | hx
  · exact mem_splitTokens_ne_empty hx
  · exact mem_splitTokens_ne_empty hx

/-- C9: a data row with fewer cells than `1 + max(title_idx, tech_idx,
subtech_idx)` is silently skipped — it is not an error, produces no Rule
Mapping, and leaves the aggregation state (all counts) unchanged; and
whenever the row-length guard passes, all three column indices are within
the row's bounds, so the cell accesses are never out of range. -/
theorem short_row_skipped (ti i s : Nat) (row : List String) (st : AggState)
    (hshort : row.length < 1 + max ti (max i s)) :
    parseRow ti i s row = none ∧
    processRowStep ti i s st row = st ∧
    (∀ row' : List String, max (ti + 1) (max (i + 1) (s + 1)) ≤ row'.length →
      ti < row'.length ∧ i < row'.length ∧ s < row'.length) := by
  have hmax : max (ti + 1) (max (i + 1) (s + 1)) = 1 + max ti (max i s) := by
    rw [Nat.succ_max_succ, Nat.succ_max_succ]
    omega
  have hguard : ¬ (max (ti + 1) (max (i + 1) (s + 1)) ≤ row.length) := by
    rw [hmax]; omega
  have hpr : parseRow ti i s row = none := by
    unfold parseRow
    rw [if_neg hguard]
  refine ⟨hpr, by simp [processRowStep, hpr], ?_⟩
  intro row' hg
  rw [hmax] at hg
  have h1 := Nat.le_max_left ti (max i s)
  have h2 := Nat.le_max_right ti (max i s)
  have h3 := Nat.le_max_left i s
  have h4 := Nat.le_max_right i s
  omega

/-- Witness for C9: the one-cell row `["Rule"]` is skipped when the column
indices are 0, 1, 2, and a three-cell row is long enough for them. -/
theorem short_row_skipped_witness :
    parseRow 0 1 2 ["Rule"] = none ∧
    processRowStep 0 1 2 ⟨[], [], []⟩ ["Rule"] = ⟨[], [], []⟩ ∧
    (0 < 3 ∧ 1 < 3 ∧ 2 < 3) := by
  have h := short_row_skipped 0 1 2 ["Rule"] ⟨[], [], []⟩ (by decide)
  refine ⟨h.1, h.2.1, ?_⟩
  have h3 := h.2.2 ["a", "b", "c"] (by decide)
  simpa using h3

/-- C7: when any required column is missing from the whitespace-trimmed
header names, processing of the file fails with an error naming both the
missing columns and the columns actually found; the failure happens before
any data row is processed (the result is the same for every list of data
rows), so no counts are accumulated and no aggregation state is
produced. -/
theorem missing_columns_fail (headerRow : List String)
    (rows : List (List String))
    (h : ∃ col ∈ requiredColumns, col ∉ headerRow.map pyStrip) :
    processCSV headerRow rows =
      .error (.missingColumns
        (requiredColumns.filter (fun col => ¬ col ∈ headerRow.map pyStrip))
        (headerRow.map pyStrip)) ∧
    (∀ rows', processCSV headerRow rows = processCSV headerRow rows') := by
  obtain ⟨col, hcol, hnot⟩ := h
  have hmem : col ∈ requiredColumns.filter
      (fun col => ¬ col ∈ headerRow.map pyStrip) :=
    List.mem_filter.mpr ⟨hcol, by simpa using hnot⟩
  have hne : requiredColumns.filter
      (fun col => ¬ col ∈ headerRow.map pyStrip) ≠ [] :=
    List.ne_nil_of_mem hmem
  constructor
  · simp only [processCSV]
    rw [if_pos hne]
  · intro rows'
    simp only [processCSV]
    rw [if_pos hne, if_pos hne]

/-- Witness for C7: a header without `subtechniques` fails naming the
missing column and the found columns, for any data rows. -/
theorem missing_columns_fail_witness :
    processCSV ["title", "techniques"] [["r1", "T1059", "T1059.001"]] =
      .error (.missingColumns ["subtechniques"] ["title", "techniques"]) := by
  have h := missing_columns_fail ["title", "techniques"]
    [["r1", "T1059", "T1059.001"]] ⟨"subtechniques", by decide, by decide⟩
  rw [h.1]
  rfl

/-- C3: for every successfully processed input, the sum of all values of
the Technique Count Table equals the total number of non-empty (after
trimming) technique tokens parsed across all retained rows — the retained
Rule Mappings are exactly the rows' parses in input order, every technique
string they carry is a non-empty token, and the total equals the sum of
their technique-list lengths — and consequently no entry of the table has
count 0. -/
theorem technique_count_total (headerRow : List String)
    (rows : List (List String)) (st : AggState)
    (h : processCSV headerRow rows = .ok st) :
    sumValues st.techniques_count =
      (st.rules_with_mappings.map (fun r => r.techniques.length)).sum ∧
    st.rules_with_mappings =
      rows.filterMap (parseRow (pyIndexOf (headerRow.map pyStrip) "title")
        (pyIndexOf (headerRow.map pyStrip) "techniques")
        (pyIndexOf (headerRow.map pyStrip) "subtechniques")) ∧
    (∀ r ∈ st.rules_with_mappings, ∀ x ∈ r.techniques, x ≠ "") ∧
    (∀ p ∈ st.techniques_count, p.2 ≠ 0) := by
  have hst := processCSV_ok h
  subst hst
  refine ⟨?_, ?_, ?_, ?_⟩
  · rw [foldl_rows_sum, foldl_rows_rules]
    simp [sumValues]
  · rw [foldl_rows_rules]
    simp
  · intro r hr x hx
    rw [foldl_rows_rules] at hr
    simp only [List.nil_append] at hr
    obtain ⟨row, hrow, hpr⟩ := List.mem_filterMap.mp hr
    exact parseRow_tokens_ne_empty _ _ _ _ _ hpr x hx
  · intro p hp
    have := foldl_rows_pos _ _ _ rows ⟨[], [], []⟩ (by simp) p hp
    omega

/-- Witness for C3 on the one-row scenario from the spec. -/
theorem technique_count_total_witness :
    sumValues
        (AggState.techniques_count
          ⟨[("T1059", 2), ("T1071", 1)],
            [("T1059", 1), ("T1071", 1), ("T1059.001", 1)],
            [⟨"Rule A", ["T1059", "T1071", "T1059.001"]⟩]⟩) =
      ((AggState.rules_with_mappings
          ⟨[("T1059", 2), ("T1071", 1)],
            [("T1059", 1), ("T1071", 1), ("T1059.001", 1)],
            [⟨"Rule A", ["T1059", "T1071", "T1059.001"]⟩]⟩).map
        (fun r => r.techniques.length)).sum ∧
    ∀ p ∈ [("T1059", 1), ("T1071", 1), ("T1059.001", 1)], Prod.snd p ≠ 0 := by
  have h := technique_count_total ["title", "techniques", "subtechniques"]
    [["Rule A", "T1059,T1071", "T1059.001"]]
    ⟨[("T1059", 2), ("T1071", 1)],
      [("T1059", 1), ("T1071", 1), ("T1059.001", 1)],
      [⟨"Rule A", ["T1059", "T1071", "T1059.001"]⟩]⟩ (by rfl)
  exact ⟨h.1, h.2.2.2⟩

/-- C2: for every technique entry of the produced layer document, the
"Rules Using Technique" metadata value is the newline-join of exactly the
names of those retained rules whose technique list contains the entry's
technique ID, in the order the Rule Mappings were retained (input row
order, i.e. the order of the rows' parses). -/
theorem rules_using_technique_correct (headerRow : List String)
    (rows : List (List String)) (st : AggState) (b time : String)
    (h : processCSV headerRow rows = .ok st) :
    ∀ e ∈ (buildLayer st b time).techniques,
      e.rulesUsing = String.intercalate "\n"
        (((rows.filterMap (parseRow (pyIndexOf (headerRow.map pyStrip) "title")
            (pyIndexOf (headerRow.map pyStrip) "techniques")
            (pyIndexOf (headerRow.map pyStrip) "subtechniques"))).filter
          (fun r => e.techniqueID ∈ r.techniques)).map Rule.name) := by
  have hst := processCSV_ok h
  subst hst
  intro e he
  simp only [buildLayer, List.mem_map] at he
  obtain ⟨p, hp, rfl⟩ := he
  simp only [buildEntry, rulesUsingValue]
  rw [foldl_rows_rules]
  simp

/-- Witness for C2 on the one-row scenario: the entry built for
`("T1059", 1)`. -/
theorem rules_using_technique_correct_witness :
    (buildEntry [⟨"Rule A", ["T1059", "T1071", "T1059.001"]⟩]
        ("T1059", 1)).rulesUsing =
      String.intercalate "\n"
        ((([["Rule A", "T1059,T1071", "T1059.001"]].filterMap
            (parseRow 0 1 2)).filter
          (fun r =>
            (buildEntry [⟨"Rule A", ["T1059", "T1071", "T1059.001"]⟩]
              ("T1059", 1)).techniqueID ∈ r.techniques)).map Rule.name) := by
  have h := rules_using_technique_correct
    ["title", "techniques", "subtechniques"]
    [["Rule A", "T1059,T1071", "T1059.001"]]
    ⟨[("T1059", 2), ("T1071", 1)],
      [("T1059", 1), ("T1071", 1), ("T1059.001", 1)],
      [⟨"Rule A", ["T1059", "T1071", "T1059.001"]⟩]⟩
    "SplunkRules" "ts" (by rfl)
  exact h _ (by decide)

/-! ### Lemmas about `maxScore` -/

theorem foldl_max_mem (xs : List Nat) (a : Nat) : xs.foldl max a ∈ a :: xs := by
  induction xs generalizing a with
  | nil => simp
  | cons y ys ih =>
    rw [List.foldl_cons]
    rcases List.mem_cons.mp (ih (max a y)) with h | h
    · rcases max_choice a y with hm | hm <;> rw [hm] at h ⊢ <;> simp [h]
    · exact List.mem_cons_of_mem _ (List.mem_cons_of_mem _ h)

theorem le_foldl_max (xs : List Nat) (a : Nat) :
    a ≤ xs.foldl max a ∧ ∀ v ∈ xs, v ≤ xs.foldl max a := by
  induction xs generalizing a with
  | nil => simp
  | cons y ys ih =>
    rw [List.foldl_cons]
    obtain ⟨h1, h2⟩ := ih (max a y)
    refine ⟨le_trans (Nat.le_max_left a y) h1, ?_⟩
    intro v hv
    rcases List.mem_cons.mp hv with rfl | hv
    · exact le_trans (Nat.le_max_right a _) h1
    · exact h2 v hv

theorem maxScore_nonempty {tc : List (String × Nat)} (h : tc ≠ []) :
    maxScore tc ∈ tc.map Prod.snd ∧
      ∀ v ∈ tc.map Prod.snd, v ≤ maxScore tc := by
  unfold maxScore
  rw [if_neg (by simpa using h)]
  cases tc with
  | nil => exact absurd rfl h
  | cons p ps =>
    rw [List.map_cons, List.foldl_cons, Nat.zero_max]
    refine ⟨foldl_max_mem _ _, ?_⟩
    intro v hv
    rcases List.mem_cons.mp hv with rfl | hv
    · exact (le_foldl_max _ _).1
    · exact (le_foldl_max _ _).2 v hv

/-- C4: in the produced layer document, `gradient.minValue` is 0 and
`gradient.maxValue` equals the maximum value of the Technique Count Table
when the table is non-empty (it is a value of the table and an upper bound
of all its values), equals 1 when the table is empty, and is never 0. -/
theorem gradient_bounds_correct (headerRow : List String)
    (rows : List (List String)) (st : AggState) (b time : String)
    (h : processCSV headerRow rows = .ok st) :
    (buildLayer st b time).gradient.minValue = 0 ∧
    (st.techniques_count = [] →
      (buildLayer st b time).gradient.maxValue = 1) ∧
    (st.techniques_count ≠ [] →
      (buildLayer st b time).gradient.maxValue ∈
          st.techniques_count.map Prod.snd ∧
      ∀ v ∈ st.techniques_count.map Prod.snd,
        v ≤ (buildLayer st b time).gradient.maxValue) ∧
    (buildLayer st b time).gradient.maxValue ≠ 0 := by
  have hpos : ∀ p ∈ st.techniques_count, 0 < p.2 := by
    have hst := processCSV_ok h
    subst hst
    exact foldl_rows_pos _ _ _ rows ⟨[], [], []⟩ (by simp)
  have hmax : (buildLayer st b time).gradient.maxValue =
      maxScore st.techniques_count := rfl
  refine ⟨rfl, ?_, ?_, ?_⟩
  · intro he
    rw [hmax, he]
    rfl
  · intro hne
    rw [hmax]
    exact maxScore_nonempty hne
  · rw [hmax]
    by_cases hne : st.techniques_count = []
    · rw [hne]
      decide
    · have hmem := (maxScore_nonempty hne).1
      obtain ⟨p, hp, hpv⟩ := List.mem_map.mp hmem
      have := hpos p hp
      omega

/-- Witness for C4 on the one-row scenario. -/
theorem gradient_bounds_correct_witness :
    (buildLayer
        ⟨[("T1059", 2), ("T1071", 1)],
          [("T1059", 1), ("T1071", 1), ("T1059.001", 1)],
          [⟨"Rule A", ["T1059", "T1071", "T1059.001"]⟩]⟩
        "SplunkRules" "ts").gradient.minValue = 0 ∧
    (buildLayer
        ⟨[("T1059", 2), ("T1071", 1)],
          [("T1059", 1), ("T1071", 1), ("T1059.001", 1)],
          [⟨"Rule A", ["T1059", "T1071", "T1059.001"]⟩]⟩
        "SplunkRules" "ts").gradient.maxValue ≠ 0 := by
  have h := gradient_bounds_correct ["title", "techniques", "subtechniques"]
    [["Rule A", "T1059,T1071", "T1059.001"]]
    ⟨[("T1059", 2), ("T1071", 1)],
      [("T1059", 1), ("T1071", 1), ("T1059.001", 1)],
      [⟨"Rule A", ["T1059", "T1071", "T1059.001"]⟩]⟩
    "SplunkRules" "ts" (by rfl)
  exact ⟨h.1, h.2.2.2⟩

/-! ### Lemmas about the color encoding -/

/-- The sixteen lowercase hexadecimal digit characters. -/
def lowercaseHexDigits : List Char := "0123456789abcdef".data

/-- The numeric value of a lowercase hexadecimal digit character. -/
def hexVal (c : Char) : Nat :=
  if c.isDigit then c.toNat - 48 else c.toNat - 87

theorem colorFor_ge_six {c : Nat} (hc : 6 ≤ c) : colorFor c = "#ff3333" := by
  have h255 : min 255 (c * 50) = 255 := Nat.min_eq_left (by omega)
  unfold colorFor
  rw [h255]
  rfl

theorem colorFor_digits (c : Nat) (hc : 1 ≤ c) :
    ∃ d1 d2 : Char, d1 ∈ lowercaseHexDigits ∧ d2 ∈ lowercaseHexDigits ∧
      hexVal d1 * 16 + hexVal d2 = min 255 (c * 50) ∧
      colorFor c = String.mk ['#', d1, d2, '3', '3', '3', '3'] := by
  by_cases h6 : c ≤ 5
  · interval_cases c
    · exact ⟨'3', '2', by decide, by decide, by decide, by decide⟩
    · exact ⟨'6', '4', by decide, by decide, by decide, by decide⟩
    · exact ⟨'9', '6', by decide, by decide, by decide, by decide⟩
    · exact ⟨'c', '8', by decide, by decide, by decide, by decide⟩
    · exact ⟨'f', 'a', by decide, by decide, by decide, by decide⟩
  · have hc6 : 6 ≤ c := by omega
    have h255 : min 255 (c * 50) = 255 := Nat.min_eq_left (by omega)
    refine ⟨'f', 'f', by decide, by decide, ?_, ?_⟩
    · rw [h255]
      decide
    · rw [colorFor_ge_six hc6]

/-- C5: every technique entry of the produced layer document has score
`c ≥ 1` and its color string is `'#'` followed by `min 255 (c * 50)`
written as exactly two lowercase hexadecimal digits for the red channel and
then `"3333"` for the green and blue channels; in particular `c = 1` gives
`"#323333"`, `c = 5` gives `"#fa3333"`, and every `c ≥ 6` gives
`"#ff3333"`. -/
theorem color_encoding_correct (headerRow : List String)
    (rows : List (List String)) (st : AggState) (b time : String)
    (h : processCSV headerRow rows = .ok st) :
    (∀ e ∈ (buildLayer st b time).techniques,
      1 ≤ e.score ∧ e.color = colorFor e.score ∧
      ∃ d1 d2 : Char, d1 ∈ lowercaseHexDigits ∧ d2 ∈ lowercaseHexDigits ∧
        hexVal d1 * 16 + hexVal d2 = min 255 (e.score * 50) ∧
        e.color = String.mk ['#', d1, d2, '3', '3', '3', '3']) ∧
    colorFor 1 = "#323333" ∧ colorFor 5 = "#fa3333" ∧
    (∀ c, 6 ≤ c → colorFor c = "#ff3333") := by
  have hpos : ∀ p ∈ st.techniques_count, 0 < p.2 := by
    have hst := processCSV_ok h
    subst hst
    exact foldl_rows_pos _ _ _ rows ⟨[], [], []⟩ (by simp)
  refine ⟨?_, by decide, by decide, fun c hc => colorFor_ge_six hc⟩
  intro e he
  simp only [buildLayer, List.mem_map] at he
  obtain ⟨p, hp, rfl⟩ := he
  have h1 : 1 ≤ (buildEntry st.rules_with_mappings p).score := hpos p hp
  exact ⟨h1, rfl, colorFor_digits _ h1⟩

/-- Witness for C5 on the one-row scenario: the entry for `("T1059", 1)`
has score 1 and color `"#323333"`. -/
theorem color_encoding_correct_witness :
    1 ≤ (buildEntry [⟨"Rule A", ["T1059", "T1071", "T1059.001"]⟩]
        ("T1059", 1)).score ∧
    (buildEntry [⟨"Rule A", ["T1059", "T1071", "T1059.001"]⟩]
        ("T1059", 1)).color =
      colorFor (buildEntry [⟨"Rule A", ["T1059", "T1071", "T1059.001"]⟩]
        ("T1059", 1)).score ∧
    colorFor 1 = "#323333" ∧ colorFor 6 = "#ff3333" := by
  have h := color_encoding_correct ["title", "techniques", "subtechniques"]
    [["Rule A", "T1059,T1071", "T1059.001"]]
    ⟨[("T1059", 2), ("T1071", 1)],
      [("T1059", 1), ("T1071", 1), ("T1059.001", 1)],
      [⟨"Rule A", ["T1059", "T1071", "T1059.001"]⟩]⟩
    "SplunkRules" "ts" (by rfl)
  have he := h.1
    (buildEntry [⟨"Rule A", ["T1059", "T1071", "T1059.001"]⟩] ("T1059", 1))
    (by decide)
  exact ⟨he.1, he.2.1, h.2.1, h.2.2.2 6 (by decide)⟩

/-! ### Trimming a cell commutes with tokenising it

The code tokenises the already-stripped cell value; the lemmas below show
this yields the same tokens as tokenising the raw cell value, because the
stripped leading/trailing whitespace only ever borders the first and last
comma-segments and is removed again by the per-token strip. -/

/-- The tokens of a cell at the character-list level. -/
def tokensC (l : List Char) : List (List Char) :=
  ((splitClist ',' l).map pyStripL).filter (fun t => t ≠ [])

theorem filter_ne_empty_map_mk (segs : List (List Char)) :
    ((segs.map String.mk).filter (fun t => t ≠ "")) =
      (segs.filter (fun t => t ≠ [])).map String.mk := by
  induction segs with
  | nil => rfl
  | cons x xs ih =>
    by_cases hx : x = []
    · subst hx
      simpa using ih
    · have hmk : String.mk x ≠ "" := fun hc => hx (congrArg String.data hc)
      simp only [List.map_cons, List.filter_cons]
      rw [if_pos (by simpa using hmk), if_pos (by simpa using hx), List.map_cons, ih]

theorem splitTokens_eq_tokensC (s : String) :
    splitTokens s = (tokensC s.data).map String.mk := by
  unfold splitTokens tokensC
  rw [← filter_ne_empty_map_mk, List.map_map]
  rfl

/-- Apply `f` to the last element of a list of segments. -/
def mapLast (f : List Char → List Char) : List (List Char) → List (List Char)
  | [] => []
  | [x] => [f x]
  | x :: y :: ys => x :: mapLast f (y :: ys)

theorem mapLast_cons (f : List Char → List Char) (x : List Char)
    (xs : List (List Char)) (h : xs ≠ []) :
    mapLast f (x :: xs) = x :: mapLast f xs := by
  cases xs with
  | nil => exact absurd rfl h
  | cons y ys => rfl

theorem isPySpace_ne_comma {c : Char} (h : isPySpace c = true) : c ≠ ',' := by
  intro hc
  subst hc
  simp [isPySpace] at h

theorem splitClist_cons_exists (sep c : Char) (l : List Char) (hc : c ≠ sep) :
    ∃ h t, splitClist sep l = h :: t ∧
      splitClist sep (c :: l) = (c :: h) :: t := by
  rcases hs : splitClist sep l with _ | ⟨h, t⟩
  · exact absurd hs (splitClist_ne_nil sep l)
  · refine ⟨h, t, rfl, ?_⟩
    simp only [splitClist]
    rw [if_neg hc, hs]

theorem splitClist_snoc (sep c : Char) (hc : c ≠ sep) :
    ∀ l : List Char, splitClist sep (l ++ [c]) =
      mapLast (fun t => t ++ [c]) (splitClist sep l)
  | [] => by
    simp only [List.nil_append, splitClist]
    rw [if_neg hc]
    rfl
  | a :: l => by
    by_cases ha : a = sep
    · rw [List.cons_append]
      simp only [splitClist, if_pos ha]
      rw [splitClist_snoc sep c hc l,
        mapLast_cons _ _ _ (splitClist_ne_nil sep l)]
    · rw [List.cons_append]
      obtain ⟨h, t, hs, hcons⟩ := splitClist_cons_exists sep a (l ++ [c]) ha
      obtain ⟨h', t', hs', hcons'⟩ := splitClist_cons_exists sep a l ha
      rw [hcons, hcons']
      have hrec := splitClist_snoc sep c hc l
      rw [hs, hs'] at hrec
      cases t' with
      | nil =>
        simp only [mapLast, List.cons.injEq] at hrec
        obtain ⟨rfl, rfl⟩ := hrec
        rfl
      | cons u us =>
        rw [mapLast_cons _ _ _ (by simp)] at hrec
        simp only [List.cons.injEq] at hrec
        obtain ⟨rfl, rfl⟩ := hrec
        rfl

theorem pyStripL_cons_ws {c : Char} (hw : isPySpace c = true) (l : List Char) :
    pyStripL (c :: l) = pyStripL l := by
  unfold pyStripL
  rw [List.dropWhile_cons, if_pos hw]

theorem pyStripL_snoc_ws {c : Char} (hw : isPySpace c = true) (l : List Char) :
    pyStripL (l ++ [c]) = pyStripL l := by
  unfold pyStripL
  rw [List.dropWhile_append]
  split
  · rename_i hemp
    rw [List.isEmpty_iff] at hemp
    rw [hemp]
    simp [List.dropWhile_cons, hw]
  · rw [List.rdropWhile_concat_pos _ _ _ hw]

theorem map_mapLast (g : List Char → List Char) (f : List Char → List Char)
    (hfg : ∀ x, f (g x) = f x) :
    ∀ xs : List (List Char), (mapLast g xs).map f = xs.map f
  | [] => rfl
  | [x] => by simp [mapLast, hfg]
  | x :: y :: ys => by
    have ih := map_mapLast g f hfg (y :: ys)
    simp only [mapLast, List.map_cons] at ih ⊢
    rw [ih]

theorem tokensC_cons_ws {c : Char} (hw : isPySpace c = true) (l : List Char) :
    tokensC (c :: l) = tokensC l := by
  unfold tokensC
  obtain ⟨h, t, hs, hcons⟩ := splitClist_cons_exists ',' c l (isPySpace_ne_comma hw)
  rw [hs, hcons]
  simp only [List.map_cons]
  rw [pyStripL_cons_ws hw]

theorem tokensC_snoc_ws {c : Char} (hw : isPySpace c = true) (l : List Char) :
    tokensC (l ++ [c]) = tokensC l := by
  unfold tokensC
  rw [splitClist_snoc ',' c (isPySpace_ne_comma hw) l,
    map_mapLast (fun t => t ++ [c]) pyStripL (fun x => pyStripL_snoc_ws hw x)]

theorem tokensC_append_ws :
    ∀ (w l : List Char), (∀ c ∈ w, isPySpace c = true) →
      tokensC (l ++ w) = tokensC l
  | [], l, _ => by simp
  | c :: w, l, hw => by
    have h1 : l ++ c :: w = (l ++ [c]) ++ w := by simp
    rw [h1,
      tokensC_append_ws w (l ++ [c]) (fun d hd => hw d (List.mem_cons_of_mem _ hd)),
      tokensC_snoc_ws (hw c (List.mem_cons_self _ _)) l]

theorem tokensC_ws_append :
    ∀ (w l : List Char), (∀ c ∈ w, isPySpace c = true) →
      tokensC (w ++ l) = tokensC l
  | [], _, _ => rfl
  | c :: w, l, hw => by
    rw [List.cons_append, tokensC_cons_ws (hw c (List.mem_cons_self _ _)),
      tokensC_ws_append w l (fun d hd => hw d (List.mem_cons_of_mem _ hd))]

theorem rdropWhile_append_rtakeWhile (p : Char → Bool) (l : List Char) :
    l.rdropWhile p ++ l.rtakeWhile p = l := by
  unfold List.rdropWhile List.rtakeWhile
  rw [← List.reverse_append, List.takeWhile_append_dropWhile, List.reverse_reverse]

theorem tokensC_pyStripL (l : List Char) : tokensC (pyStripL l) = tokensC l := by
  have step1 : tokensC (pyStripL l) = tokensC (List.dropWhile isPySpace l) := by
    unfold pyStripL
    conv_rhs =>
      rw [← rdropWhile_append_rtakeWhile isPySpace (List.dropWhile isPySpace l)]
    rw [tokensC_append_ws
      (List.rtakeWhile isPySpace (List.dropWhile isPySpace l))
      (List.rdropWhile isPySpace (List.dropWhile isPySpace l))
      (fun c hc => List.mem_rtakeWhile_imp hc)]
  rw [step1]
  conv_rhs => rw [← List.takeWhile_append_dropWhile isPySpace l]
  rw [tokensC_ws_append (List.takeWhile isPySpace l) (List.dropWhile isPySpace l)
    (fun c hc => List.mem_takeWhile_imp hc)]

theorem splitTokens_pyStrip (s : String) :
    splitTokens (pyStrip s) = splitTokens s := by
  rw [splitTokens_eq_tokensC, splitTokens_eq_tokensC]
  have hdata : (pyStrip s).data = pyStripL s.data := rfl
  rw [hdata, tokensC_pyStripL]

theorem splitTokens_of_strip_empty {s : String} (h : pyStrip s = "") :
    splitTokens s = [] := by
  rw [← splitTokens_pyStrip, h]
  rfl

theorem parseRow_techniques_ne_nil (ti i s : Nat) (row : List String) (r : Rule)
    (h : parseRow ti i s row = some r) : r.techniques ≠ [] := by
  simp only [parseRow, if_splitTokens] at h
  split at h
  · split at h
    · exact absurd h (by simp)
    · split at h
      · exact absurd h (by simp)
      · rename_i hA
        simp only [Option.some.injEq] at h
        rw [← h]
        exact hA
  · exact absurd h (by simp)

/-- C6: for a data row with enough cells in the split-columns format, the
parsed technique sequence is the comma-split token list of the techniques
column (tokens trimmed, empty tokens discarded) followed by that of the
subtechniques column, in that order; and a row whose two technique columns
are both empty after trimming is skipped silently — it is not an error,
contributes no Rule Mapping, and changes no count. -/
theorem split_columns_parsing (ti i s : Nat) (row : List String) (st : AggState)
    (hlen : max (ti + 1) (max (i + 1) (s + 1)) ≤ row.length) :
    (pyStrip (row.getD i "") = "" ∧ pyStrip (row.getD s "") = "" →
      parseRow ti i s row = none ∧ processRowStep ti i s st row = st) ∧
    (∀ r, parseRow ti i s row = some r →
      r.techniques = splitTokens (row.getD i "") ++ splitTokens (row.getD s "")) ∧
    (splitTokens (row.getD i "") ++ splitTokens (row.getD s "") ≠ [] →
      parseRow ti i s row =
        some ⟨pyStrip (row.getD ti ""),
          splitTokens (row.getD i "") ++ splitTokens (row.getD s "")⟩) := by
  refine ⟨?_, ?_, ?_⟩
  · rintro ⟨hT, hS⟩
    have hpr : parseRow ti i s row = none := by
      cases hp : parseRow ti i s row with
      | none => rfl
      | some r =>
        have hempty : r.techniques = [] := by
          rw [parseRow_techniques ti i s row r hp, hT, hS]
          rfl
        exact absurd hempty (parseRow_techniques_ne_nil ti i s row r hp)
    exact ⟨hpr, by simp [processRowStep, hpr]⟩
  · intro r hr
    rw [parseRow_techniques ti i s row r hr, splitTokens_pyStrip,
      splitTokens_pyStrip]
  · intro hne
    have hboth : ¬ (pyStrip (row.getD i "") = "" ∧ pyStrip (row.getD s "") = "") := by
      rintro ⟨hT, hS⟩
      apply hne
      rw [splitTokens_of_strip_empty hT, splitTokens_of_strip_empty hS]
      rfl
    simp only [parseRow, if_splitTokens]
    rw [if_pos hlen, if_neg hboth, splitTokens_pyStrip (row.getD i ""),
      splitTokens_pyStrip (row.getD s ""), if_neg hne]

/-- Witness for C6: a row with tokens in both styles is parsed into the
concatenated token list, and a whitespace-only row is skipped. -/
theorem split_columns_parsing_witness :
    parseRow 0 1 2 ["Rule A", "T1059, ,T1071", " "] =
      some ⟨pyStrip "Rule A", splitTokens "T1059, ,T1071" ++ splitTokens " "⟩ ∧
    parseRow 0 1 2 ["Rule B", " ", " "] = none ∧
    processRowStep 0 1 2 ⟨[], [], []⟩ ["Rule B", " ", " "] = ⟨[], [], []⟩ := by
  have h1 := split_columns_parsing 0 1 2 ["Rule A", "T1059, ,T1071", " "]
    ⟨[], [], []⟩ (by decide)
  have h2 := split_columns_parsing 0 1 2 ["Rule B", " ", " "]
    ⟨[], [], []⟩ (by decide)
  exact ⟨h1.2.2 (by decide), (h2.1 (by decide)).1, (h2.1 (by decide)).2⟩

/-! ### Exit codes and the per-file exception boundary -/

/-- C8 counterexample: a file that exists but whose processing body raises
(e.g. a missing-columns `ValueError`) is caught by the per-file handler,
and in single-file mode the process exit code is 0 — not non-zero as the
claim states. -/
theorem caught_failure_exit_code_zero :
    mainSingle ⟨"SplunkRules.csv", true,
        Except.error "Missing required columns"⟩ = 0 ∧
    ¬ (mainSingle ⟨"SplunkRules.csv", true,
        Except.error "Missing required columns"⟩ ≠ 0) :=
  ⟨rfl, fun h => h rfl⟩

/-- C8 (amended): any exception raised during a file's processing after the
file-existence check is caught at the per-file boundary and reported with
its message; in batch mode it does not propagate and all subsequent files
are still processed; in single-file mode it also does not propagate and the
process exit code is 0 — exit code 1 arises only from a failure before the
per-file boundary, such as the file-existence check; a fully successful run
exits with code 0. -/
theorem per_file_error_handling :
    (∀ f : FileInput, f.fileExists = true → ∀ e, f.body = Except.error e →
      processMitreData f =
          Except.ok (some ("Error processing MITRE data: " ++ e)) ∧
      mainSingle f = 0) ∧
    (∀ f : FileInput, f.fileExists = false →
      processMitreData f = Except.error ("CSV file not found: " ++ f.path) ∧
      mainSingle f = 1) ∧
    (∀ fs : List FileInput, (∀ g ∈ fs, g.fileExists = true) →
      (runBatch fs).1 = fs.map FileInput.path ∧ (runBatch fs).2 = 0) ∧
    (∀ f : FileInput, f.fileExists = true → f.body = Except.ok () →
      mainSingle f = 0) := by
  refine ⟨?_, ?_, ?_, ?_⟩
  · intro f hex e hb
    constructor
    · simp [processMitreData, hex, hb]
    · simp [mainSingle, processMitreData, hex, hb]
  · intro f hex
    constructor
    · simp [processMitreData, hex]
    · simp [mainSingle, processMitreData, hex]
  · intro fs
    induction fs with
    | nil => intro _; exact ⟨rfl, rfl⟩
    | cons f rest ih =>
      intro hall
      have hex := hall f (List.mem_cons_self _ _)
      have hrest := ih (fun g hg => hall g (List.mem_cons_of_mem _ hg))
      have hok : ∃ o, processMitreData f = Except.ok o := by
        unfold processMitreData
        rw [hex]
        cases f.body <;> simp
      obtain ⟨o, ho⟩ := hok
      constructor
      · simp only [runBatch, ho, List.map_cons]
        rw [hrest.1]
      · simp only [runBatch, ho]
        exact hrest.2
  · intro f hex hb
    simp [mainSingle, processMitreData, hex, hb]

/-- Witness for the amended C8 at concrete inputs: a caught body failure is
reported and exits 0; a missing file propagates and exits 1; a batch over
two existing files (one failing) processes both and exits 0. -/
theorem per_file_error_handling_witness :
    processMitreData ⟨"a.csv", true, Except.error "boom"⟩ =
      Except.ok (some "Error processing MITRE data: boom") ∧
    mainSingle ⟨"a.csv", true, Except.error "boom"⟩ = 0 ∧
    mainSingle ⟨"b.csv", false, Except.ok ()⟩ = 1 ∧
    (runBatch [⟨"a.csv", true, Except.error "boom"⟩,
        ⟨"c.csv", true, Except.ok ()⟩]).1 = ["a.csv", "c.csv"] ∧
    (runBatch [⟨"a.csv", true, Except.error "boom"⟩,
        ⟨"c.csv", true, Except.ok ()⟩]).2 = 0 := by
  have h := per_file_error_handling
  have h1 := h.1 ⟨"a.csv", true, Except.error "boom"⟩ rfl "boom" rfl
  have h2 := h.2.1 ⟨"b.csv", false, Except.ok ()⟩ rfl
  have h3 := h.2.2.1
    [⟨"a.csv", true, Except.error "boom"⟩, ⟨"c.csv", true, Except.ok ()⟩]
    (by
      intro g hg
      rcases List.mem_cons.mp hg with rfl | hg
      · rfl
      · rcases List.mem_cons.mp hg with rfl | hg
        · rfl
        · simp at hg)
  exact ⟨h1.1, h1.2, h2.2, h3.1, h3.2⟩

/-! ### The output file path -/

theorem stringDataEq {a b : String} (h : a.data = b.data) : a = b := by
  cases a
  cases b
  exact congrArg String.mk h

/-- C10: the output layer file for a processed input is written under the
MITRE output directory in a subdirectory named by the input file's base
name truncated at the first underscore (or the literal `default` when the
base name contains no underscore), with filename
`layer_` + base name without extension + `_` + timestamp + `.json`. -/
theorem output_path_correct (csv_path current_time : String) :
    layerFilename csv_path current_time =
      "MITRE/" ++
        (if '_' ∈ (pyBasename csv_path).data
          then String.mk ((pyBasename csv_path).data.takeWhile (fun c => c ≠ '_'))
          else "default") ++
        "/layer_" ++ pySplitextRoot (pyBasename csv_path) ++ "_" ++
        current_time ++ ".json" := by
  have hsub : get_subfolder_name csv_path =
      (if '_' ∈ (pyBasename csv_path).data
        then String.mk ((pyBasename csv_path).data.takeWhile (fun c => c ≠ '_'))
        else "default") := by
    unfold get_subfolder_name
    by_cases h : '_' ∈ (pyBasename csv_path).data
    · rw [if_pos h, if_pos h, splitClist_headD_eq_takeWhile]
    · rw [if_neg h, if_neg h]
  have hL : layerFilename csv_path current_time =
      ("MITRE" ++ "/" ++ get_subfolder_name csv_path) ++ "/" ++
        ("layer_" ++ pySplitextRoot (pyBasename csv_path) ++ "_" ++
          current_time ++ ".json") := rfl
  have h1 : ∀ x : String, "MITRE" ++ ("/" ++ x) = "MITRE/" ++ x := by
    intro x
    rw [← String.append_assoc]
    have hm : ("MITRE" ++ "/" : String) = "MITRE/" := by decide
    rw [hm]
  have h2 : ∀ x : String, "/" ++ ("layer_" ++ x) = "/layer_" ++ x := by
    intro x
    rw [← String.append_assoc]
    have hm : ("/" ++ "layer_" : String) = "/layer_" := by decide
    rw [hm]
  rw [hL, hsub]
  simp only [String.append_assoc]
  rw [h1, h2]

end SplunkMitre
